import Mathlib

/-!
Verification of the spatial-grouping utilities (`FINE/spagat/grouping_utils.py`)
against their natural-language specification.

The Python code is shallowly embedded: numpy arrays become lists of rationals
(`List ℚ`, matrices `List (List ℚ)`), possibly-NaN float entries become
`Option ℚ` (with `none` standing for NaN), Python dictionaries become
association lists, and fallible code (KeyError / IndexError) returns `Option`.
Python's and numpy's negative-index wraparound on sequences is modelled
explicitly (`pyGet`).
-/

/-- A numpy float value: `none` models NaN (and more generally any non-finite
result such as the output of a division by zero). -/
abbrev QF := Option ℚ

/-- A numeric matrix (list of rows). -/
abbrev Mat := List (List ℚ)

/-- Python / numpy sequence indexing: non-negative indices index from the
front, negative indices wrap around from the back, anything out of range is
an IndexError (`none`). -/
def pyGet {α : Type} (l : List α) (i : ℤ) : Option α :=
  if 0 ≤ i then
    l.get? i.toNat
  else
    let j : ℤ := (l.length : ℤ) + i
    if 0 ≤ j then l.get? j.toNat else none

/-- Python dict lookup (`d[k]`): `none` models a KeyError. -/
def dictGet {α : Type} (d : List (String × α)) (k : String) : Option α :=
  (d.find? (fun p => p.1 == k)).map Prod.snd

/-- `np.min` over a list of values; `none` on the empty list (numpy raises). -/
def npMin : List ℚ → Option ℚ
  | [] => none
  | x :: xs => some (xs.foldl min x)

/-- `np.max` over a list of values; `none` on the empty list (numpy raises). -/
def npMax : List ℚ → Option ℚ
  | [] => none
  | x :: xs => some (xs.foldl max x)

/-- Embedding of `matrix_MinMaxScaler` (grouping_utils.py, lines 12-33):
if the global max equals the global min the matrix is returned unchanged,
otherwise every entry is mapped affinely onto `[scaled_min, scaled_max]`.
`none` models the numpy error on an empty matrix. -/
def matrix_MinMaxScaler (matrix : Mat) (scaled_min : ℚ := 0) (scaled_max : ℚ := 1) :
    Option Mat :=
  match npMax matrix.flatten, npMin matrix.flatten with
  | some mx, some mn =>
    if mx = mn then
      some matrix
    else
      some (matrix.map (List.map
        (fun v => (v - mn) / (mx - mn) * (scaled_max - scaled_min) + scaled_min)))
  | _, _ => none

section MinMaxLemmas

theorem foldl_min_le_start (xs : List ℚ) (x : ℚ) : xs.foldl min x ≤ x := by
  induction xs generalizing x with
  | nil => simp
  | cons y ys ih =>
    simp only [List.foldl_cons]
    exact le_trans (ih (min x y)) (min_le_left x y)

theorem foldl_min_le_mem (xs : List ℚ) (x : ℚ) (y : ℚ) (hy : y ∈ xs) :
    xs.foldl min x ≤ y := by
  induction xs generalizing x with
  | nil => simp at hy
  | cons z zs ih =>
    simp only [List.foldl_cons]
    rcases List.mem_cons.mp hy with h | h
    · subst h
      exact le_trans (foldl_min_le_start zs (min x y)) (min_le_right x y)
    · exact ih (min x z) h

theorem foldl_min_mem (xs : List ℚ) (x : ℚ) :
    xs.foldl min x = x ∨ xs.foldl min x ∈ xs := by
  induction xs generalizing x with
  | nil => left; rfl
  | cons y ys ih =>
    simp only [List.foldl_cons]
    rcases ih (min x y) with h | h
    · rcases min_cases x y with ⟨he, _⟩ | ⟨he, _⟩
      · left; rw [h, he]
      · right; rw [h, he]; exact List.mem_cons_self y ys
    · right; exact List.mem_cons_of_mem y h

theorem npMin_spec (l : List ℚ) (m : ℚ) (h : npMin l = some m) :
    m ∈ l ∧ ∀ y ∈ l, m ≤ y := by
  match l with
  | [] => simp [npMin] at h
  | x :: xs =>
    simp only [npMin, Option.some_inj] at h
    subst h
    constructor
    · rcases foldl_min_mem xs x with h | h
      · rw [h]; exact List.mem_cons_self x xs
      · exact List.mem_cons_of_mem x h
    · intro y hy
      rcases List.mem_cons.mp hy with h | h
      · subst h; exact foldl_min_le_start xs y
      · exact foldl_min_le_mem xs x y h

theorem npMin_eq (l : List ℚ) (m : ℚ) (hmem : m ∈ l) (hle : ∀ y ∈ l, m ≤ y) :
    npMin l = some m := by
  match l with
  | [] => simp at hmem
  | x :: xs =>
    simp only [npMin, Option.some_inj]
    have h1 : xs.foldl min x ≤ m := by
      rcases List.mem_cons.mp hmem with h | h
      · subst h; exact foldl_min_le_start xs m
      · exact foldl_min_le_mem xs x m h
    have h2 : m ≤ xs.foldl min x := by
      rcases foldl_min_mem xs x with h | h
      · rw [h]; exact hle x (List.mem_cons_self x xs)
      · exact hle _ (List.mem_cons_of_mem x h)
    exact le_antisymm h1 h2

theorem start_le_foldl_max (xs : List ℚ) (x : ℚ) : x ≤ xs.foldl max x := by
  induction xs generalizing x with
  | nil => simp
  | cons y ys ih =>
    simp only [List.foldl_cons]
    exact le_trans (le_max_left x y) (ih (max x y))

theorem mem_le_foldl_max (xs : List ℚ) (x : ℚ) (y : ℚ) (hy : y ∈ xs) :
    y ≤ xs.foldl max x := by
  induction xs generalizing x with
  | nil => simp at hy
  | cons z zs ih =>
    simp only [List.foldl_cons]
    rcases List.mem_cons.mp hy with h | h
    · subst h
      exact le_trans (le_max_right x y) (start_le_foldl_max zs (max x y))
    · exact ih (max x z) h

theorem foldl_max_mem (xs : List ℚ) (x : ℚ) :
    xs.foldl max x = x ∨ xs.foldl max x ∈ xs := by
  induction xs generalizing x with
  | nil => left; rfl
  | cons y ys ih =>
    simp only [List.foldl_cons]
    rcases ih (max x y) with h | h
    · rcases max_cases x y with ⟨he, _⟩ | ⟨he, _⟩
      · left; rw [h, he]
      · right; rw [h, he]; exact List.mem_cons_self y ys
    · right; exact List.mem_cons_of_mem y h

theorem npMax_spec (l : List ℚ) (m : ℚ) (h : npMax l = some m) :
    m ∈ l ∧ ∀ y ∈ l, y ≤ m := by
  match l with
  | [] => simp [npMax] at h
  | x :: xs =>
    simp only [npMax, Option.some_inj] at h
    subst h
    constructor
    · rcases foldl_max_mem xs x with h | h
      · rw [h]; exact List.mem_cons_self x xs
      · exact List.mem_cons_of_mem x h
    · intro y hy
      rcases List.mem_cons.mp hy with h | h
      · subst h; exact start_le_foldl_max xs y
      · exact mem_le_foldl_max xs x y h

theorem npMax_eq (l : List ℚ) (m : ℚ) (hmem : m ∈ l) (hle : ∀ y ∈ l, y ≤ m) :
    npMax l = some m := by
  match l with
  | [] => simp at hmem
  | x :: xs =>
    simp only [npMax, Option.some_inj]
    have h1 : m ≤ xs.foldl max x := by
      rcases List.mem_cons.mp hmem with h | h
      · subst h; exact start_le_foldl_max xs m
      · exact mem_le_foldl_max xs x m h
    have h2 : xs.foldl max x ≤ m := by
      rcases foldl_max_mem xs x with h | h
      · rw [h]; exact hle x (List.mem_cons_self x xs)
      · exact hle _ (List.mem_cons_of_mem x h)
    exact le_antisymm h2 h1

end MinMaxLemmas

/-- C7: for a matrix whose global max strictly exceeds its global min,
`matrix_MinMaxScaler` with default bounds maps every entry `v` to
`(v - min)/(max - min)`, and the resulting matrix has minimum 0 and
maximum 1; for a matrix whose max equals its min, the input is returned
unchanged. -/
theorem matrix_MinMaxScaler_correct (m : Mat) (mn mx : ℚ)
    (hmin : npMin m.flatten = some mn) (hmax : npMax m.flatten = some mx) :
    (mn < mx →
      matrix_MinMaxScaler m 0 1 =
        some (m.map (List.map (fun v => (v - mn) / (mx - mn)))) ∧
      npMin (m.map (List.map (fun v => (v - mn) / (mx - mn)))).flatten = some 0 ∧
      npMax (m.map (List.map (fun v => (v - mn) / (mx - mn)))).flatten = some 1) ∧
    (mx = mn → matrix_MinMaxScaler m 0 1 = some m) := by
  have hflat : (m.map (List.map (fun v => (v - mn) / (mx - mn)))).flatten
      = m.flatten.map (fun v => (v - mn) / (mx - mn)) := by
    induction m with
    | nil => simp
    | cons r rs ih => simp [ih]
  obtain ⟨hmnmem, hmnle⟩ := npMin_spec _ _ hmin
  obtain ⟨hmxmem, hmxle⟩ := npMax_spec _ _ hmax
  constructor
  · intro hlt
    have hne : mx ≠ mn := ne_of_gt hlt
    have hpos : (0 : ℚ) < mx - mn := by linarith
    refine ⟨?_, ?_, ?_⟩
    · simp only [matrix_MinMaxScaler, hmin, hmax]
      rw [if_neg hne]
      congr 1
      apply List.map_congr_left
      intro r _
      apply List.map_congr_left
      intro v _
      ring
    · rw [hflat]
      apply npMin_eq
      · have : (0 : ℚ) = (mn - mn) / (mx - mn) := by
          field_simp
        rw [this]
        exact List.mem_map_of_mem _ hmnmem
      · intro y hy
        obtain ⟨v, hv, rfl⟩ := List.mem_map.mp hy
        have := hmnle v hv
        exact div_nonneg (by linarith) (le_of_lt hpos)
    · rw [hflat]
      apply npMax_eq
      · have : (1 : ℚ) = (mx - mn) / (mx - mn) := by
          field_simp
        rw [this]
        exact List.mem_map_of_mem _ hmxmem
      · intro y hy
        obtain ⟨v, hv, rfl⟩ := List.mem_map.mp hy
        have := hmxle v hv
        rw [div_le_one hpos]
        linarith
  · intro heq
    simp only [matrix_MinMaxScaler, hmin, hmax]
    rw [if_pos heq]

/-- Witness for C7 at the concrete matrix `[[0, 2], [1, 4]]`. -/
theorem matrix_MinMaxScaler_correct_witness :
    npMin ([[0, 2], [1, 4]] : Mat).flatten = some 0 ∧
    npMax ([[0, 2], [1, 4]] : Mat).flatten = some 4 ∧
    ((0 : ℚ) < 4 →
      matrix_MinMaxScaler [[0, 2], [1, 4]] 0 1 =
        some (([[0, 2], [1, 4]] : Mat).map (List.map (fun v => (v - 0) / (4 - 0)))) ∧
      npMin (([[0, 2], [1, 4]] : Mat).map
        (List.map (fun v => (v - 0) / (4 - 0)))).flatten = some 0 ∧
      npMax (([[0, 2], [1, 4]] : Mat).map
        (List.map (fun v => (v - 0) / (4 - 0)))).flatten = some 1) ∧
    ((4 : ℚ) = 0 → matrix_MinMaxScaler [[0, 2], [1, 4]] 0 1 = some [[0, 2], [1, 4]]) := by
  refine ⟨by decide, by decide, ?_⟩
  exact matrix_MinMaxScaler_correct [[0, 2], [1, 4]] 0 4 (by decide) (by decide)

/-! ## Distance engine (`selfDistance`, grouping_utils.py lines 338-427) -/

/-- `sum(np.power(a - b, 2))`: sum of squared element-wise differences of two
equal-length feature rows. -/
def sqDiffSum (xs ys : List ℚ) : ℚ :=
  (List.zipWith (fun a b => (a - b) ^ 2) xs ys).sum

/-- Embedding of STEP 3c (i) of `selfDistance` (line 412): the condensed index
`region_index_x * (n_regions - region_index_x) + (region_index_y - region_index_x) - 1`
used to look up a region pair in the condensed 2-d vectors. -/
def condensedIndex (n_regions region_index_x region_index_y : ℤ) : ℤ :=
  region_index_x * (n_regions - region_index_x) +
    (region_index_y - region_index_x) - 1

/-- One iteration of the `distance_ts` / `distance_1d` accumulation loops of
`selfDistance` (STEP 3a and 3b): look up the variable's weight, read the two
region rows and add the weighted sum of squared differences.
`none` models a raised KeyError / IndexError. -/
def distCategoryStep (vw : List (String × ℚ)) (x y : ℤ)
    (acc : Option ℚ) (p : String × Mat) : Option ℚ := do
  let s ← acc
  let w ← dictGet vw p.1
  let region_x_data ← pyGet p.2 x
  let region_y_data ← pyGet p.2 y
  pure (s + sqDiffSum region_x_data region_y_data * w)

/-- Embedding of the `distance_ts` / `distance_1d` accumulation loops of
`selfDistance` (STEP 3a and 3b). -/
def distCategory (vw : List (String × ℚ)) (ds : List (String × Mat))
    (x y : ℤ) : Option ℚ :=
  ds.foldl (distCategoryStep vw x y) (some 0)

/-- Inner component loop of STEP 3c of `selfDistance`: read the condensed
vector at the condensed index (numpy indexing, so negative indices wrap) and,
unless the entry is NaN, add its square times the variable weight. -/
def dist2dInner (w : ℚ) (idx : ℤ)
    (acc2 : Option ℚ) (q : ℕ × List QF) : Option ℚ := do
  let s2 ← acc2
  let value_var_c ← pyGet q.2 idx
  match value_var_c with
  | none => pure s2
  | some v => pure (s2 + v * v * w)

/-- One iteration of the `distance_2d` accumulation loop of `selfDistance`
(STEP 3c): look up the variable's weight, then fold over its components. -/
def dist2dStep (vw : List (String × ℚ)) (idx : ℤ)
    (acc : Option ℚ) (p : String × List (ℕ × List QF)) : Option ℚ := do
  let s ← acc
  let w ← dictGet vw p.1
  p.2.foldl (dist2dInner w idx) (pure s)

/-- Embedding of the `distance_2d` accumulation loop of `selfDistance`
(STEP 3c). -/
def dist2d (vw : List (String × ℚ)) (ds : List (String × List (ℕ × List QF)))
    (idx : ℤ) : Option ℚ :=
  ds.foldl (dist2dStep vw idx) (some 0)

/-- Default weights: `dict.fromkeys(vars_list, 1)` over the keys of the three
preprocessed dictionaries. -/
def defaultVarWeights (ds_ts ds_1d : List (String × Mat))
    (ds_2d : List (String × List (ℕ × List QF))) : List (String × ℚ) :=
  (ds_ts.map Prod.fst ++ ds_1d.map Prod.fst ++ ds_2d.map Prod.fst).map
    (fun v => (v, 1))

/-- Embedding of `selfDistance` (grouping_utils.py lines 338-427).
A falsy `var_weightings` (Python `None` or an empty dict) selects the default
weighting; likewise for `part_weightings`. Returns `none` when the Python code
would raise (missing dictionary key, out-of-range index). -/
def selfDistance (ds_ts ds_1d : List (String × Mat))
    (ds_2d : List (String × List (ℕ × List QF)))
    (n_regions region_index_x region_index_y : ℤ)
    (var_weightings : Option (List (String × ℚ)))
    (part_weightings : Option (List ℚ)) : Option ℚ :=
  let vw : List (String × ℚ) :=
    match var_weightings with
    | none => defaultVarWeights ds_ts ds_1d ds_2d
    | some [] => defaultVarWeights ds_ts ds_1d ds_2d
    | some (w :: ws) => w :: ws
  let pw : List ℚ :=
    match part_weightings with
    | none => [1, 1, 1]
    | some [] => [1, 1, 1]
    | some (p :: ps) => p :: ps
  do
    let distance_ts ← distCategory vw ds_ts region_index_x region_index_y
    let distance_1d ← distCategory vw ds_1d region_index_x region_index_y
    let region_index_x_y := condensedIndex n_regions region_index_x region_index_y
    let distance_2d ← dist2d vw ds_2d region_index_x_y
    let p0 ← pyGet pw 0
    let p1 ← pyGet pw 1
    let p2 ← pyGet pw 2
    pure (distance_ts * p0 + distance_1d * p1 + distance_2d * p2)

/-! ## Condensed (squareform) flattening used by `preprocess2dVariables`
(grouping_utils.py lines 194-211) -/

/-- Entry `(i, j)` of a matrix, with out-of-range defaulting to 0 (used only
under explicit bounds hypotheses). -/
def matGet (m : Mat) (i j : ℕ) : ℚ :=
  (m.getD i []).getD j 0

/-- Embedding of `scipy.cluster.hierarchy.distance.squareform(data, checks=False)`
on a square matrix: the row-major flattening of the strict upper triangle,
row `i` contributing its entries in columns `i+1 .. n-1`. -/
def squareform (m : Mat) : List ℚ :=
  (List.range m.length).flatMap (fun i => (m.getD i []).drop (i + 1))

/-- STEP 4a-4b of `preprocess2dVariables` in `toDissimilarity` mode: flatten
the scaled symmetric connectivity matrix with `squareform` and turn
connectivity into distance (`1 - vec`). -/
def toDissimilarityVec (data : Mat) : List ℚ :=
  (squareform data).map (fun v => 1 - v)

/-! ## C1: the condensed index of `selfDistance` versus the squareform layout -/

/-- C1 (code bug): for `n_regions = 4` and the region pair `(2, 3)`, the
condensed index computed by `selfDistance` is 4, but the row-major
upper-triangle flattening produced by `squareform` (as used by
`preprocess2dVariables` in `toDissimilarity` mode) stores the `(2, 3)` entry
at position 5; index 4 holds the `(1, 3)` entry instead, so `selfDistance`
reads (and squares) the wrong pair's value. -/
theorem condensedIndex_squareform_mismatch :
    condensedIndex 4 2 3 = 4 ∧
    squareform [[0, 1, 2, 3], [1, 0, 12, 13], [2, 12, 0, 23], [3, 13, 23, 0]] =
      [1, 2, 3, 12, 13, 23] ∧
    pyGet (squareform [[0, 1, 2, 3], [1, 0, 12, 13], [2, 12, 0, 23], [3, 13, 23, 0]])
      (condensedIndex 4 2 3) = some 13 ∧
    matGet [[0, 1, 2, 3], [1, 0, 12, 13], [2, 12, 0, 23], [3, 13, 23, 0]] 2 3 = 23 ∧
    pyGet (squareform [[0, 1, 2, 3], [1, 0, 12, 13], [2, 12, 0, 23], [3, 13, 23, 0]])
      5 = some 23 ∧
    selfDistance [] []
      [("v", [(0, (squareform
        [[0, 1, 2, 3], [1, 0, 12, 13], [2, 12, 0, 23], [3, 13, 23, 0]]).map some)])]
      4 2 3 none none = some 169 ∧
    (169 : ℚ) ≠ 23 * 23 := by
  have hsq : squareform [[0, 1, 2, 3], [1, 0, 12, 13], [2, 12, 0, 23], [3, 13, 23, 0]] =
      [1, 2, 3, 12, 13, 23] := by decide
  refine ⟨by decide, hsq, by decide, by decide, by decide, ?_, by norm_num⟩
  rw [hsq]
  simp [selfDistance, distCategory, dist2d, dist2dStep, dist2dInner,
    distCategoryStep, defaultVarWeights, dictGet, pyGet, condensedIndex,
    List.find?]
  norm_num

/-! ## C2: symmetry of `selfDistance` in the two region indices -/

/-- C2 (counterexample): with a single pairwise variable over 3 regions whose
condensed dissimilarity vector is `[0, 1/2, 1/4]`, swapping the region indices
changes the result: `selfDistance(0, 2)` reads condensed index 1 while
`selfDistance(2, 0)` computes condensed index -1, which numpy wraps around to
the last entry. -/
theorem selfDistance_not_symmetric :
    selfDistance [] [] [("v", [(0, [some 0, some (1/2), some (1/4)])])]
      3 0 2 none none = some (1/4) ∧
    selfDistance [] [] [("v", [(0, [some 0, some (1/2), some (1/4)])])]
      3 2 0 none none = some (1/16) ∧
    ((1 : ℚ)/4) ≠ 1/16 := by
  refine ⟨?_, ?_, by norm_num⟩ <;>
  · simp [selfDistance, distCategory, dist2d, dist2dStep, dist2dInner,
      distCategoryStep, defaultVarWeights, dictGet, pyGet, condensedIndex,
      sqDiffSum, List.find?]
    norm_num

theorem sqDiffSum_comm (xs ys : List ℚ) : sqDiffSum xs ys = sqDiffSum ys xs := by
  unfold sqDiffSum
  rw [List.zipWith_comm_of_comm]
  intro a b
  ring

theorem distCategory_symm (vw : List (String × ℚ)) (ds : List (String × Mat))
    (x y : ℤ) : distCategory vw ds x y = distCategory vw ds y x := by
  unfold distCategory
  apply List.foldl_ext
  intro acc p _
  cases acc with
  | none => rfl
  | some s =>
    unfold distCategoryStep
    cases dictGet vw p.1 with
    | none => rfl
    | some w =>
      cases hx : pyGet p.2 x <;> cases hy : pyGet p.2 y <;>
        simp [hx, hy, sqDiffSum_comm]

theorem dist2d_nil (vw : List (String × ℚ)) (idx : ℤ) :
    dist2d vw [] idx = some 0 := rfl

/-- C2 (amended): when the preprocessed input contains no pairwise (2-d)
variables, `selfDistance` is symmetric in the two region indices, for every
choice of weightings. -/
theorem selfDistance_symm_no2d (ds_ts ds_1d : List (String × Mat))
    (n x y : ℤ) (vwo : Option (List (String × ℚ))) (pwo : Option (List ℚ)) :
    selfDistance ds_ts ds_1d [] n x y vwo pwo =
    selfDistance ds_ts ds_1d [] n y x vwo pwo := by
  unfold selfDistance
  simp only [dist2d_nil]
  rw [distCategory_symm _ ds_ts x y, distCategory_symm _ ds_1d x y]

/-! ## C5: explicit weight mappings and missing keys -/

theorem foldl_none_absorb {α β : Type} (f : Option α → β → Option α)
    (h : ∀ b, f none b = none) : ∀ l : List β, l.foldl f none = none := by
  intro l
  induction l with
  | nil => rfl
  | cons b bs ih =>
    simp only [List.foldl_cons, h]
    exact ih

theorem distCategoryStep_none (vw : List (String × ℚ)) (x y : ℤ)
    (p : String × Mat) : distCategoryStep vw x y none p = none := rfl

theorem dist2dStep_none (vw : List (String × ℚ)) (idx : ℤ)
    (p : String × List (ℕ × List QF)) : dist2dStep vw idx none p = none := rfl

theorem distCategory_missing (vw : List (String × ℚ)) (x y : ℤ) (var : String)
    (hmiss : dictGet vw var = none) :
    ∀ (ds : List (String × Mat)) (acc : Option ℚ), var ∈ ds.map Prod.fst →
      ds.foldl (distCategoryStep vw x y) acc = none := by
  intro ds
  induction ds with
  | nil =>
    intro acc h
    simp at h
  | cons p ps ih =>
    intro acc h
    simp only [List.map_cons, List.mem_cons] at h
    rcases h with h | h
    · have hstep : distCategoryStep vw x y acc p = none := by
        cases acc with
        | none => rfl
        | some s =>
          have : dictGet vw p.1 = none := h ▸ hmiss
          simp [distCategoryStep, this]
      simp only [List.foldl_cons, hstep]
      exact foldl_none_absorb _ (distCategoryStep_none vw x y) ps
    · simp only [List.foldl_cons]
      exact ih _ h

theorem dist2d_missing (vw : List (String × ℚ)) (idx : ℤ) (var : String)
    (hmiss : dictGet vw var = none) :
    ∀ (ds : List (String × List (ℕ × List QF))) (acc : Option ℚ),
      var ∈ ds.map Prod.fst →
      ds.foldl (dist2dStep vw idx) acc = none := by
  intro ds
  induction ds with
  | nil =>
    intro acc h
    simp at h
  | cons p ps ih =>
    intro acc h
    simp only [List.map_cons, List.mem_cons] at h
    rcases h with h | h
    · have hstep : dist2dStep vw idx acc p = none := by
        cases acc with
        | none => rfl
        | some s =>
          have : dictGet vw p.1 = none := h ▸ hmiss
          simp [dist2dStep, this]
      simp only [List.foldl_cons, hstep]
      exact foldl_none_absorb _ (dist2dStep_none vw idx) ps
    · simp only [List.foldl_cons]
      exact ih _ h

/-- When the caller supplies a *non-empty* variable-weight mapping and some
variable observed in `ds_ts`, `ds_1d` or `ds_2d` is absent from it,
`selfDistance` fails with a missing-key lookup error (`none`). -/
theorem selfDistance_missing_key (ds_ts ds_1d : List (String × Mat))
    (ds_2d : List (String × List (ℕ × List QF)))
    (n x y : ℤ) (l : List (String × ℚ)) (pw : Option (List ℚ)) (var : String)
    (hne : l ≠ [])
    (hobs : var ∈ ds_ts.map Prod.fst ++ ds_1d.map Prod.fst ++ ds_2d.map Prod.fst)
    (hmiss : dictGet l var = none) :
    selfDistance ds_ts ds_1d ds_2d n x y (some l) pw = none := by
  match l with
  | [] => exact absurd rfl hne
  | w0 :: ws =>
    show (do
      let distance_ts ← distCategory (w0 :: ws) ds_ts x y
      let distance_1d ← distCategory (w0 :: ws) ds_1d x y
      let distance_2d ← dist2d (w0 :: ws) ds_2d (condensedIndex n x y)
      let p0 ← pyGet (match pw with
        | none => [1, 1, 1] | some [] => [1, 1, 1] | some (p :: ps) => p :: ps) 0
      let p1 ← pyGet (match pw with
        | none => [1, 1, 1] | some [] => [1, 1, 1] | some (p :: ps) => p :: ps) 1
      let p2 ← pyGet (match pw with
        | none => [1, 1, 1] | some [] => [1, 1, 1] | some (p :: ps) => p :: ps) 2
      pure (distance_ts * p0 + distance_1d * p1 + distance_2d * p2)) = none
    rcases List.mem_append.mp hobs with h | h2d
    · rcases List.mem_append.mp h with hts | h1d
      · have : distCategory (w0 :: ws) ds_ts x y = none :=
          distCategory_missing _ x y var hmiss ds_ts _ hts
        rw [this]
        rfl
      · have h1 : distCategory (w0 :: ws) ds_1d x y = none :=
          distCategory_missing _ x y var hmiss ds_1d _ h1d
        cases distCategory (w0 :: ws) ds_ts x y with
        | none => rfl
        | some s =>
          simp only [Option.bind_some, Option.some_bind, h1]
          rfl
    · have h2 : dist2d (w0 :: ws) ds_2d (condensedIndex n x y) = none :=
        dist2d_missing _ _ var hmiss ds_2d _ h2d
      cases distCategory (w0 :: ws) ds_ts x y with
      | none => rfl
      | some s =>
        cases distCategory (w0 :: ws) ds_1d x y with
        | none => rfl
        | some t =>
          simp only [Option.bind_some, Option.some_bind, h2]
          rfl

/-! ## Scalar (1-d) preprocessor (`preprocess1dVariables`,
grouping_utils.py lines 82-118) -/

/-- `np.nanmin` semantics over possibly-NaN values: minimum of the non-NaN
entries (`none` when all entries are NaN). -/
def nanMin (l : List QF) : Option ℚ := npMin (l.filterMap id)

/-- `np.nanmax` semantics over possibly-NaN values. -/
def nanMax (l : List QF) : Option ℚ := npMax (l.filterMap id)

/-- sklearn's `_handle_zeros_in_scale`: a zero data range is replaced by 1
so that constant features do not divide by zero. -/
def handleZerosInScale (r : ℚ) : ℚ := if r = 0 then 1 else r

/-- One feature column of sklearn's `MinMaxScaler` with the default feature
range `(0, 1)`, exactly as `fit_transform` computes it:
`scale_ = (1 - 0) / handle_zeros(data_max - data_min)`,
`min_ = 0 - data_min * scale_`, and `transform(v) = v * scale_ + min_`;
NaN entries are ignored by `fit` and propagate through `transform`. -/
def sklearnScaleColumn (col : List QF) : List QF :=
  match nanMin col, nanMax col with
  | some data_min, some data_max =>
    let scale := (1 - 0) / handleZerosInScale (data_max - data_min)
    let min_offset := 0 - data_min * scale
    col.map (Option.map (fun v => v * scale + min_offset))
  | _, _ => col

/-- numpy's `.T` on a rectangular (k × n) array given as k rows. (For the
empty 0 × n array this returns `[]`; no claim depends on that edge case.) -/
def npTranspose : List (List QF) → List (List QF)
  | [] => []
  | [r] => r.map (fun v => [v])
  | r :: rs => List.zipWith (fun v col => v :: col) r (npTranspose rs)

/-- STEP 1 of the preprocessors: the valid component ids of a variable, i.e.
the components whose mean over the remaining dimensions is not NaN. With
xarray's skipna mean, a component is valid iff it has at least one non-NaN
value. -/
def validComponents (da : List (List QF)) (n_components : ℕ) : List ℕ :=
  (List.range n_components).filter (fun c => (da.getD c []).any (fun v => v.isSome))

/-- Embedding of `preprocess1dVariables` (grouping_utils.py lines 82-118):
for each variable, keep the valid components' rows, transpose to
(region × valid component) and apply sklearn's feature-wise MinMaxScaler.
Scaling each column of `data.T` is scaling each row of `data`, so the
embedding scales the component rows and then transposes. -/
def preprocess1dVariables (vars_dict : List (String × List (List QF)))
    (n_components : ℕ) : List (String × List (List QF)) :=
  vars_dict.map (fun p =>
    let data := (validComponents p.2 n_components).map (fun c => p.2.getD c [])
    (p.1, npTranspose (data.map sklearnScaleColumn)))

/-- The joint global scaling described by the claim: scale the whole
(region × valid-component) matrix to [0, 1] using its single global minimum
and maximum across all regions and components. -/
def scaleJointGlobal (m : List (List QF)) : List (List QF) :=
  match npMin (m.flatten.filterMap id), npMax (m.flatten.filterMap id) with
  | some mn, some mx =>
    m.map (List.map (Option.map (fun v => (v - mn) / (mx - mn))))
  | _, _ => m

/-- Per-column scaling of one valid component's region values to [0, 1] by
that column's own minimum and maximum; a constant column maps to zeros. -/
def perColumnScale (col : List QF) : List QF :=
  match nanMin col, nanMax col with
  | some mn, some mx =>
    if mn = mx then col.map (Option.map (fun _ => 0))
    else col.map (Option.map (fun v => (v - mn) / (mx - mn)))
  | _, _ => col

/-- The scalar preprocessor as the amended claim describes it: valid
components' rows, each scaled independently by its own min and max, then
transposed to (region × valid component). -/
def specScalarPreprocess (vars_dict : List (String × List (List QF)))
    (n_components : ℕ) : List (String × List (List QF)) :=
  vars_dict.map (fun p =>
    let data := (validComponents p.2 n_components).map (fun c => p.2.getD c [])
    (p.1, npTranspose (data.map perColumnScale)))

theorem sklearnScaleColumn_eq_perColumnScale (col : List QF) :
    sklearnScaleColumn col = perColumnScale col := by
  unfold sklearnScaleColumn perColumnScale
  cases hmn : nanMin col with
  | none =>
    cases hmx : nanMax col <;> rfl
  | some mn =>
    cases hmx : nanMax col with
    | none => rfl
    | some mx =>
      have hmn' : npMin (col.filterMap id) = some mn := hmn
      have hmx' : npMax (col.filterMap id) = some mx := hmx
      obtain ⟨_, hmnle⟩ := npMin_spec _ _ hmn'
      obtain ⟨_, hmxle⟩ := npMax_spec _ _ hmx'
      dsimp only
      by_cases h : mn = mx
      · subst h
        rw [if_pos rfl]
        apply List.map_congr_left
        intro a ha
        cases a with
        | none => rfl
        | some v =>
          have hv : v ∈ col.filterMap id := by
            simp only [List.mem_filterMap, id]
            exact ⟨some v, ha, rfl⟩
          have hev : v = mn := le_antisymm (hmxle v hv) (hmnle v hv)
          simp only [Option.map_some']
          have : handleZerosInScale (mn - mn) = 1 := by
            simp [handleZerosInScale]
          rw [this, hev]
          norm_num
      · rw [if_neg h]
        have hne : mx - mn ≠ 0 := sub_ne_zero.mpr (Ne.symm h)
        have : handleZerosInScale (mx - mn) = mx - mn := by
          simp [handleZerosInScale, hne]
        rw [this]
        apply List.map_congr_left
        intro a _
        cases a with
        | none => rfl
        | some v =>
          simp only [Option.map_some', Option.some_inj]
          field_simp
          ring

/-- C3 (counterexample): for the 2-component, 2-region scalar variable with
component rows `[0, 1]` and `[1, 3]`, the feature-wise sklearn scaler maps
each component column onto [0, 1] separately, giving `[[0, 0], [1, 1]]`,
whereas jointly scaling the whole (region × component) matrix by its global
min 0 and max 3 gives `[[0, 1/3], [1/3, 1]]`; the two disagree. -/
theorem preprocess1d_ne_jointScaling :
    preprocess1dVariables [("v", [[some 0, some 1], [some 1, some 3]])] 2 ≠
      [("v", scaleJointGlobal (npTranspose [[some 0, some 1], [some 1, some 3]]))] := by
  have hv : validComponents [[some 0, some 1], [some 1, some 3]] 2 = [0, 1] := by decide
  have h1 : preprocess1dVariables [("v", [[some 0, some 1], [some 1, some 3]])] 2 =
      [("v", [[some 0, some 0], [some 1, some 1]])] := by
    simp [preprocess1dVariables, hv, sklearnScaleColumn, nanMin, nanMax, npMin, npMax,
      handleZerosInScale, npTranspose]
    norm_num
  have h2 : scaleJointGlobal (npTranspose [[some 0, some 1], [some 1, some 3]]) =
      [[some 0, some (1/3)], [some (1/3), some 1]] := by
    simp [scaleJointGlobal, npTranspose, npMin, npMax]
  rw [h1, h2]
  intro hc
  simp only [List.cons.injEq, Prod.mk.injEq, Option.some.injEq] at hc
  have : (0 : ℚ) = 1/3 := hc.1.2.1.2.1
  norm_num at this

/-- C3 (amended): the matrix produced by `preprocess1dVariables` equals the
result of scaling each valid component's region column independently to
[0, 1] using that column's own minimum and maximum (a constant column maps
to zeros), not the joint global scaling of the whole matrix. -/
theorem preprocess1d_eq_perColumnScaling (vars_dict : List (String × List (List QF)))
    (n_components : ℕ) :
    preprocess1dVariables vars_dict n_components =
      specScalarPreprocess vars_dict n_components := by
  unfold preprocess1dVariables specScalarPreprocess
  have hfun : sklearnScaleColumn = perColumnScale :=
    funext sklearnScaleColumn_eq_perColumnScale
  rw [hfun]

/-! ## Distance matrix (`selfDistanceMatrix`, grouping_utils.py lines 429-458) -/

/-- An n × n numpy matrix given entry-wise. -/
def matFromFun (n : ℕ) (f : ℕ → ℕ → ℚ) : Mat :=
  (List.range n).map (fun i => (List.range n).map (f i))

/-- numpy transpose of an n × n matrix. -/
def matTransposeN (n : ℕ) (m : Mat) : Mat :=
  matFromFun n (fun i j => matGet m j i)

/-- `np.diag(m.diagonal())` for an n × n matrix. -/
def matDiagN (n : ℕ) (m : Mat) : Mat :=
  matFromFun n (fun i j => if i = j then matGet m i i else 0)

/-- Embedding of `selfDistanceMatrix` (grouping_utils.py lines 429-458):
fill the strict upper triangle with `selfDistance` values (the two loops with
`j` in `range(i+1, n_regions)`), then symmetrize with
`distMatrix += distMatrix.T - np.diag(distMatrix.diagonal())`.
`none` models an exception raised by some `selfDistance` call. -/
def selfDistanceMatrix (ds_ts ds_1d : List (String × Mat))
    (ds_2d : List (String × List (ℕ × List QF)))
    (n_regions : ℕ)
    (var_weightings : Option (List (String × ℚ))) : Option Mat :=
  match (List.range n_regions).mapM (fun (i : ℕ) =>
    (List.range n_regions).mapM (fun (j : ℕ) =>
      if i < j then
        selfDistance ds_ts ds_1d ds_2d (n_regions : ℤ) (i : ℤ) (j : ℤ)
          var_weightings none
      else
        pure 0)) with
  | none => none
  | some distMatrix =>
    some (matFromFun n_regions (fun i j =>
      matGet distMatrix i j +
        (matGet (matTransposeN n_regions distMatrix) i j -
          matGet (matDiagN n_regions distMatrix) i j)))

theorem mapM'_option_char {α β : Type} (f : α → Option β) :
    ∀ (l : List α) (L : List β), l.mapM' f = some L →
      L.length = l.length ∧
      ∀ k a, l.get? k = some a → ∃ b, L.get? k = some b ∧ f a = some b := by
  intro l
  induction l with
  | nil =>
    intro L h
    simp only [List.mapM'_nil, pure, Option.some_inj] at h
    subst h
    exact ⟨rfl, by intro k a ha; simp at ha⟩
  | cons a l ih =>
    intro L h
    simp only [List.mapM'_cons] at h
    cases hfa : f a with
    | none => rw [hfa] at h; simp at h
    | some b =>
      rw [hfa] at h
      cases hml : l.mapM' f with
      | none => rw [hml] at h; simp at h
      | some bs =>
        rw [hml] at h
        simp at h
        obtain ⟨hlen, hget⟩ := ih bs hml
        subst h
        refine ⟨by simp [hlen], ?_⟩
        intro k c hc
        match k with
        | 0 =>
          simp only [List.get?] at hc ⊢
          cases hc
          exact ⟨b, rfl, hfa⟩
        | k + 1 =>
          simp only [List.get?] at hc ⊢
          exact hget k c hc

theorem mapM_option_char {α β : Type} (f : α → Option β)
    (l : List α) (L : List β) (h : l.mapM f = some L) :
    L.length = l.length ∧
    ∀ k a, l.get? k = some a → ∃ b, L.get? k = some b ∧ f a = some b :=
  mapM'_option_char f l L (by rw [List.mapM'_eq_mapM]; exact h)

theorem matGet_matFromFun (n : ℕ) (f : ℕ → ℕ → ℚ) (i j : ℕ)
    (hi : i < n) (hj : j < n) : matGet (matFromFun n f) i j = f i j := by
  unfold matGet matFromFun
  rw [List.getD_eq_get?, List.getD_eq_get?, List.get?_map, List.get?_range hi]
  simp only [Option.map_some', Option.getD_some]
  rw [List.get?_map, List.get?_range hj]
  rfl

theorem matFromFun_length (n : ℕ) (f : ℕ → ℕ → ℚ) :
    (matFromFun n f).length = n := by
  simp [matFromFun]

theorem matFromFun_row_length (n : ℕ) (f : ℕ → ℕ → ℚ) :
    ∀ row ∈ matFromFun n f, row.length = n := by
  intro row hrow
  obtain ⟨i, _, rfl⟩ := List.mem_map.mp hrow
  simp

/-- C6: whenever `selfDistanceMatrix` returns a matrix, that matrix is
n_regions × n_regions, symmetric, and has a zero diagonal. -/
theorem selfDistanceMatrix_symmetric_hollow
    (ds_ts ds_1d : List (String × Mat))
    (ds_2d : List (String × List (ℕ × List QF)))
    (n : ℕ) (vw : Option (List (String × ℚ))) (M : Mat)
    (h : selfDistanceMatrix ds_ts ds_1d ds_2d n vw = some M) :
    M.length = n ∧ (∀ row ∈ M, row.length = n) ∧
    (∀ i j, i < n → j < n → matGet M i j = matGet M j i) ∧
    (∀ i, i < n → matGet M i i = 0) := by
  unfold selfDistanceMatrix at h
  split at h
  case h_1 => exact absurd h (by simp)
  case h_2 U hU =>
    simp only [Option.some_inj] at h
    subst h
    have hUdiag : ∀ i, i < n → matGet U i i = 0 := by
      intro i hi
      obtain ⟨_, hrows⟩ := mapM_option_char _ _ _ hU
      obtain ⟨row, hrow, hrowM⟩ := hrows i i (List.get?_range hi)
      obtain ⟨_, hcols⟩ := mapM_option_char _ _ _ hrowM
      obtain ⟨v, hv, hvM⟩ := hcols i i (List.get?_range hi)
      rw [if_neg (lt_irrefl i)] at hvM
      have hv0 : v = 0 := by
        simpa [pure] using hvM.symm
      have h1 : U.getD i [] = row := by
        rw [List.getD_eq_get?, hrow]
        rfl
      have h2 : row.getD i 0 = 0 := by
        rw [List.getD_eq_get?, hv, hv0]
        rfl
      unfold matGet
      rw [h1, h2]
    refine ⟨matFromFun_length _ _, matFromFun_row_length _ _, ?_, ?_⟩
    · intro i j hi hj
      rw [matGet_matFromFun _ _ _ _ hi hj, matGet_matFromFun _ _ _ _ hj hi]
      unfold matTransposeN matDiagN
      rw [matGet_matFromFun _ _ _ _ hi hj, matGet_matFromFun _ _ _ _ hj hi,
        matGet_matFromFun _ _ _ _ hi hj, matGet_matFromFun _ _ _ _ hj hi]
      rcases eq_or_ne i j with rfl | hij
      · ring
      · rw [if_neg hij, if_neg (Ne.symm hij)]
        ring
    · intro i hi
      rw [matGet_matFromFun _ _ _ _ hi hi]
      unfold matTransposeN matDiagN
      rw [matGet_matFromFun _ _ _ _ hi hi, matGet_matFromFun _ _ _ _ hi hi,
        if_pos rfl, hUdiag i hi]
      ring

/-- Witness for C6: on three empty preprocessed dictionaries with 2 regions,
`selfDistanceMatrix` succeeds and the returned matrix satisfies all the
invariants. -/
theorem selfDistanceMatrix_symmetric_hollow_witness :
    selfDistanceMatrix [] [] [] 2 none = some [[0, 0], [0, 0]] ∧
    ([[0, 0], [0, 0]] : Mat).length = 2 ∧
    (∀ row ∈ ([[0, 0], [0, 0]] : Mat), row.length = 2) ∧
    (∀ i j, i < 2 → j < 2 →
      matGet [[0, 0], [0, 0]] i j = matGet [[0, 0], [0, 0]] j i) ∧
    (∀ i, i < 2 → matGet [[0, 0], [0, 0]] i i = 0) := by
  have hd01 : selfDistance [] [] [] 2 0 1 none none = some 0 := by
    simp [selfDistance, distCategory, dist2d, defaultVarWeights, pyGet]
  have hcomp : selfDistanceMatrix [] [] [] 2 none = some [[0, 0], [0, 0]] := by
    unfold selfDistanceMatrix
    simp only [← List.mapM'_eq_mapM]
    simp [show List.range 2 = [0, 1] from rfl, hd01, matFromFun, matTransposeN,
      matDiagN, matGet]
  have h := selfDistanceMatrix_symmetric_hollow [] [] [] 2 none [[0, 0], [0, 0]] hcomp
  exact ⟨hcomp, h.1, h.2.1, h.2.2.1, h.2.2.2⟩

/-- C8: for 3 regions and one scalar variable with values `[0, 5, 10]` for its
single valid component, the scalar preprocessor yields the [0,1]-scaled column
`[0, 1/2, 1]`, and `selfDistanceMatrix` on that preprocessed data returns the
3 × 3 matrix with `dist(0,1) = 1/4`, `dist(0,2) = 1` and `dist(1,2) = 1/4`. -/
theorem scenarioA_distances :
    preprocess1dVariables [("cap", [[some 0, some 5, some 10]])] 1 =
      [("cap", [[some 0], [some (1/2)], [some 1]])] ∧
    ([[0], [1/2], [1]] : Mat).map (List.map some) =
      [[some 0], [some (1/2)], [some 1]] ∧
    selfDistanceMatrix [] [("cap", [[0], [1/2], [1]])] [] 3 none =
      some [[0, 1/4, 1], [1/4, 0, 1/4], [1, 1/4, 0]] ∧
    matGet [[0, 1/4, 1], [1/4, 0, 1/4], [1, 1/4, 0]] 0 1 = 1/4 ∧
    matGet [[0, 1/4, 1], [1/4, 0, 1/4], [1, 1/4, 0]] 0 2 = 1 ∧
    matGet [[0, 1/4, 1], [1/4, 0, 1/4], [1, 1/4, 0]] 1 2 = 1/4 := by
  have hpre : preprocess1dVariables [("cap", [[some 0, some 5, some 10]])] 1 =
      [("cap", [[some 0], [some (1/2)], [some 1]])] := by
    have hv : validComponents [[some 0, some 5, some 10]] 1 = [0] := by decide
    simp [preprocess1dVariables, hv, sklearnScaleColumn, nanMin, nanMax, npMin, npMax,
      handleZerosInScale, npTranspose]
    norm_num
  have hd01 : selfDistance [] [("cap", [[0], [1/2], [1]])] [] 3 0 1 none none =
      some (1/4) := by
    simp [selfDistance, distCategory, distCategoryStep, dist2d, defaultVarWeights,
      dictGet, pyGet, sqDiffSum, List.find?]
    norm_num
  have hd02 : selfDistance [] [("cap", [[0], [1/2], [1]])] [] 3 0 2 none none =
      some 1 := by
    simp [selfDistance, distCategory, distCategoryStep, dist2d, defaultVarWeights,
      dictGet, pyGet, sqDiffSum, List.find?]
  have hd12 : selfDistance [] [("cap", [[0], [1/2], [1]])] [] 3 1 2 none none =
      some (1/4) := by
    simp [selfDistance, distCategory, distCategoryStep, dist2d, defaultVarWeights,
      dictGet, pyGet, sqDiffSum, List.find?]
    norm_num
  have hmat : selfDistanceMatrix [] [("cap", [[0], [1/2], [1]])] [] 3 none =
      some [[0, 1/4, 1], [1/4, 0, 1/4], [1, 1/4, 0]] := by
    have h2i : ((2:ℚ))⁻¹ = 1/2 := by norm_num
    have h4i : ((4:ℚ))⁻¹ = 1/4 := by norm_num
    unfold selfDistanceMatrix
    simp only [← List.mapM'_eq_mapM]
    simp [show List.range 3 = [0, 1, 2] from rfl, matFromFun,
      matTransposeN, matDiagN, matGet]
    rw [h2i, h4i, hd01, hd02, hd12]
    simp
  exact ⟨hpre, rfl, hmat, rfl, rfl, rfl⟩

/-! ## Modularity (`computeModularity`, grouping_utils.py lines 551-591) -/

/-- numpy float addition: NaN (or any non-finite operand) propagates. -/
def fAdd : QF → QF → QF
  | some a, some b => some (a + b)
  | _, _ => none

/-- numpy float subtraction with NaN propagation. -/
def fSub : QF → QF → QF
  | some a, some b => some (a - b)
  | _, _ => none

/-- numpy float multiplication with NaN propagation (note `NaN * 0 = NaN`
in IEEE arithmetic, which this models). -/
def fMul : QF → QF → QF
  | some a, some b => some (a * b)
  | _, _ => none

/-- numpy float division: division by zero yields a non-finite value
(NaN or ±Inf, both modelled by `none`) instead of raising. -/
def fDiv : QF → QF → QF
  | some a, some b => if b = 0 then none else some (a / b)
  | _, _ => none

/-- Set index `i` of a row to 0 (no effect when the row is shorter). -/
def zeroAt : ℕ → List ℚ → List ℚ
  | _, [] => []
  | 0, _ :: vs => 0 :: vs
  | n + 1, v :: vs => v :: zeroAt n vs

/-- Helper for `fillDiagonalZero`: row `i` gets its `i`-th entry zeroed. -/
def fillDiagAux : ℕ → Mat → Mat
  | _, [] => []
  | i, row :: rest => zeroAt i row :: fillDiagAux (i + 1) rest

/-- Embedding of `np.fill_diagonal(adjacency, 0)` (an in-place mutation of
the caller's array in the Python code; modelled by explicitly returning the
updated matrix). -/
def fillDiagonalZero (m : Mat) : Mat := fillDiagAux 0 m

/-- `np.sum(adjacency[v])`: weighted degree of node `v`. -/
def npRowSum (m : Mat) (v : ℕ) : ℚ := (m.getD v []).sum

/-- `np.sum(adjacency)`: total edge weight. -/
def npSum (m : Mat) : ℚ := (m.map List.sum).sum

/-- The unordered region pairs `(v, w)` with `v < w < n`, in the iteration
order of the two nested loops. -/
def pairList (n : ℕ) : List (ℕ × ℕ) :=
  (List.range n).flatMap (fun v =>
    (List.range' (v + 1) (n - (v + 1))).map (fun w => (v, w)))

/-- One iteration of the modularity accumulation (STEP 2 of
`computeModularity`): recompute the two weighted degrees, set `delta` from
the labels, and add `(adjacency[v,w] - d_v * d_w / (2 * edge_weights_sum)) * delta`. -/
def modularityStep (adj : Mat) (labels : List ℤ) (acc : QF) (p : ℕ × ℕ) : QF :=
  let d_v := npRowSum adj p.1
  let d_w := npRowSum adj p.2
  let delta : ℚ := if labels.getD p.1 0 = labels.getD p.2 0 then 1 else 0
  fAdd acc (fMul (fSub (some (matGet adj p.1 p.2))
    (fDiv (some (d_v * d_w)) (some (2 * npSum adj)))) (some delta))

/-- The accumulated modularity before the final normalization. -/
def modularitySum (adj : Mat) (labels : List ℤ) : QF :=
  (pairList labels.length).foldl (modularityStep adj labels) (some 0)

/-- Embedding of `computeModularity` (grouping_utils.py lines 551-591).
The first component of the result is the adjacency matrix as the caller sees
it after the call (the code zeroes its diagonal in place); the second is the
returned modularity value, `none` when numpy would produce NaN/Inf. -/
def computeModularity (adjacency : Mat) (regions_label_list : List ℤ) :
    Mat × QF :=
  let adj := fillDiagonalZero adjacency
  (adj, fDiv (modularitySum adj regions_label_list) (some (2 * npSum adj)))

/-- C4 (code bug): the all-zero 2 × 2 adjacency matrix has zero total edge
weight; `computeModularity` divides by zero and returns a non-finite value
(numpy's silent NaN) instead of failing with an explicit domain error. -/
theorem computeModularity_zero_weight_nan :
    (computeModularity [[0, 0], [0, 0]] [0, 1]).2 = none := by
  have hp : pairList 2 = [(0, 1)] := by decide
  simp [computeModularity, modularitySum, modularityStep, hp, fillDiagonalZero,
    fillDiagAux, zeroAt, npSum, npRowSum, matGet, fAdd, fSub, fMul, fDiv]

theorem foldl_const {α β : Type} (f : α → β → α) (c : α) (l : List β)
    (h : ∀ b ∈ l, f c b = c) : l.foldl f c = c := by
  induction l with
  | nil => rfl
  | cons b bs ih =>
    rw [List.foldl_cons, h b (List.mem_cons_self b bs)]
    exact ih (fun x hx => h x (List.mem_cons_of_mem b hx))

theorem mem_pairList (n v w : ℕ) (h : (v, w) ∈ pairList n) : v < w ∧ w < n := by
  unfold pairList at h
  rw [List.mem_flatMap] at h
  obtain ⟨a, ha, hmem⟩ := h
  rw [List.mem_map] at hmem
  obtain ⟨b, hb, heq⟩ := hmem
  injection heq with h1 h2
  subst h1
  subst h2
  rw [List.mem_range] at ha
  rw [List.mem_range'] at hb
  omega

theorem nodup_getD_ne (L : List ℤ) (hnd : L.Nodup) (v w : ℕ)
    (hv : v < L.length) (hw : w < L.length) (hvw : v ≠ w) :
    L.getD v 0 ≠ L.getD w 0 := by
  rw [List.getD_eq_get?, List.getD_eq_get?, List.get?_eq_get hv, List.get?_eq_get hw]
  simp only [Option.getD_some]
  intro he
  have hfin := (List.Nodup.get_inj_iff hnd).mp he
  exact hvw (congrArg Fin.val hfin)

/-- C9: for an adjacency matrix with strictly positive total edge weight
(after its diagonal is zeroed) and pairwise-distinct region labels (every
region its own singleton cluster), `computeModularity` returns exactly 0. -/
theorem computeModularity_singletons_zero (adjacency : Mat) (labels : List ℤ)
    (hW : 0 < npSum (fillDiagonalZero adjacency)) (hnd : labels.Nodup) :
    (computeModularity adjacency labels).2 = some 0 := by
  have h2W : 2 * npSum (fillDiagonalZero adjacency) ≠ 0 := by
    have : (0:ℚ) < 2 * npSum (fillDiagonalZero adjacency) := by linarith
    exact ne_of_gt this
  have hmod : modularitySum (fillDiagonalZero adjacency) labels = some 0 := by
    unfold modularitySum
    apply foldl_const
    intro p hp
    obtain ⟨hvw, hwn⟩ := mem_pairList _ _ _ hp
    have hv : p.1 < labels.length := lt_trans hvw hwn
    have hδ : labels.getD p.1 0 ≠ labels.getD p.2 0 :=
      nodup_getD_ne labels hnd p.1 p.2 hv hwn (ne_of_lt hvw)
    unfold modularityStep
    dsimp only
    rw [if_neg hδ]
    simp [fAdd, fMul, fSub, fDiv, h2W]
  unfold computeModularity
  dsimp only
  rw [hmod]
  simp [fDiv, h2W]

/-- Witness for C9 at the concrete path graph on two regions with singleton
labels. -/
theorem computeModularity_singletons_zero_witness :
    (0:ℚ) < npSum (fillDiagonalZero [[0, 1], [1, 0]]) ∧
    ([0, 1] : List ℤ).Nodup ∧
    (computeModularity [[0, 1], [1, 0]] [0, 1]).2 = some 0 := by
  have hW : (0:ℚ) < npSum (fillDiagonalZero [[0, 1], [1, 0]]) := by
    norm_num [npSum, fillDiagonalZero, fillDiagAux, zeroAt]
  refine ⟨hW, by decide, ?_⟩
  exact computeModularity_singletons_zero [[0, 1], [1, 0]] [0, 1] hW (by decide)

/-! ## C10: `computeModularity` mutates the caller's adjacency matrix -/

/-- C10 (counterexample): with a nonzero diagonal, the adjacency matrix seen
by the caller after `computeModularity` is not the matrix that was passed in:
`np.fill_diagonal(adjacency, 0)` has zeroed its diagonal in place. -/
theorem computeModularity_mutates_input :
    (computeModularity [[1, 1], [1, 1]] [0, 0]).1 = [[0, 1], [1, 0]] ∧
    (computeModularity [[1, 1], [1, 1]] [0, 0]).1 ≠ [[1, 1], [1, 1]] := by
  constructor
  · rfl
  · intro hc
    have h0 : (computeModularity [[1, 1], [1, 1]] [0, 0]).1 = [[0, 1], [1, 0]] := rfl
    rw [h0] at hc
    norm_num at hc

theorem zeroAt_get? (row : List ℚ) : ∀ (i j : ℕ),
    (zeroAt i row).get? j =
      if j = i then (row.get? j).map (fun _ => 0) else row.get? j := by
  induction row with
  | nil =>
    intro i j
    simp [zeroAt]
  | cons v vs ih =>
    intro i j
    match i, j with
    | 0, 0 => rfl
    | 0, j + 1 => simp [zeroAt]
    | i + 1, 0 => simp [zeroAt]
    | i + 1, j + 1 =>
      simp only [zeroAt, List.get?]
      rw [ih i j]
      by_cases h : j = i
      · subst h
        simp
      · rw [if_neg h, if_neg (fun hc => h (Nat.succ_injective hc))]

theorem zeroAt_length (row : List ℚ) : ∀ i : ℕ, (zeroAt i row).length = row.length := by
  induction row with
  | nil => intro i; cases i <;> rfl
  | cons v vs ih =>
    intro i
    cases i with
    | zero => rfl
    | succ n => simpa [zeroAt] using ih n

theorem fillDiagAux_get? (m : Mat) : ∀ (k i : ℕ),
    (fillDiagAux k m).get? i = (m.get? i).map (zeroAt (k + i)) := by
  induction m with
  | nil => intro k i; rfl
  | cons row rest ih =>
    intro k i
    cases i with
    | zero => simp [fillDiagAux]
    | succ n =>
      simp only [fillDiagAux, List.get?]
      rw [ih (k + 1) n]
      have he : k + 1 + n = k + (n + 1) := by omega
      rw [he]

theorem fillDiagAux_length (m : Mat) : ∀ k : ℕ, (fillDiagAux k m).length = m.length := by
  induction m with
  | nil => intro k; rfl
  | cons row rest ih =>
    intro k
    simpa [fillDiagAux] using ih (k + 1)

theorem fillDiagonalZero_matGet (A : Mat) (i j : ℕ) :
    matGet (fillDiagonalZero A) i j = if i = j then 0 else matGet A i j := by
  unfold fillDiagonalZero matGet
  simp only [List.getD_eq_get?]
  rw [fillDiagAux_get? A 0 i, Nat.zero_add]
  cases hA : A.get? i with
  | none =>
    simp only [Option.map_none', Option.getD_none]
    by_cases h : i = j <;> simp [h]
  | some row =>
    simp only [Option.map_some', Option.getD_some]
    rw [zeroAt_get? row i j]
    by_cases h : j = i
    · subst h
      rw [if_pos rfl, if_pos rfl]
      cases row.get? j <;> simp
    · rw [if_neg h, if_neg (fun hc => h hc.symm)]

/-- C10 (amended): `computeModularity` zeroes the diagonal of the caller's
adjacency matrix in place; every off-diagonal entry, the number of rows and
every row length are preserved, but each diagonal entry is 0 afterwards. -/
theorem computeModularity_mutation_shape (A : Mat) (L : List ℤ) :
    (∀ i j, i ≠ j → matGet (computeModularity A L).1 i j = matGet A i j) ∧
    (∀ i, matGet (computeModularity A L).1 i i = 0) ∧
    ((computeModularity A L).1.length = A.length ∧
      ∀ k, ((computeModularity A L).1.getD k []).length = (A.getD k []).length) := by
  have hfst : (computeModularity A L).1 = fillDiagonalZero A := rfl
  rw [hfst]
  refine ⟨?_, ?_, ?_, ?_⟩
  · intro i j hij
    rw [fillDiagonalZero_matGet, if_neg hij]
  · intro i
    rw [fillDiagonalZero_matGet, if_pos rfl]
  · exact fillDiagAux_length A 0
  · intro k
    unfold fillDiagonalZero
    rw [List.getD_eq_get?, List.getD_eq_get?, fillDiagAux_get? A 0 k, Nat.zero_add]
    cases hA : A.get? k with
    | none => rfl
    | some row => simpa using zeroAt_length row k

/-- Witness for C10 (amended), applying it at a concrete matrix and the
off-diagonal pair (0, 1). -/
theorem computeModularity_mutation_shape_witness :
    (0 : ℕ) ≠ 1 ∧
    matGet (computeModularity [[5, 7], [8, 9]] [0, 0]).1 0 1 =
      matGet [[5, 7], [8, 9]] 0 1 ∧
    matGet (computeModularity [[5, 7], [8, 9]] [0, 0]).1 0 0 = 0 ∧
    (computeModularity [[5, 7], [8, 9]] [0, 0]).1.length =
      ([[5, 7], [8, 9]] : Mat).length := by
  have h := computeModularity_mutation_shape [[5, 7], [8, 9]] [0, 0]
  exact ⟨by decide, h.1 0 1 (by decide), h.2.1 0, h.2.2.1⟩

/-! ## `preprocessDataset` in `toAffinity` mode
(grouping_utils.py lines 290-335) -/

/-- One iteration of STEP 4a / 4b of `preprocessDataset` in `toAffinity`
mode: look up the variable's weight (`weight = var_weightings[var]`, a
KeyError — `none` — when absent) and column-concatenate the weighted matrix,
`np.concatenate((acc, var_matrix * weight), axis=1)`. -/
def affWeightStep (vw : List (String × ℚ))
    (acc : Option Mat) (p : String × Mat) : Option Mat := do
  let m ← acc
  let weight ← dictGet vw p.1
  pure (List.zipWith (fun r1 r2 => r1 ++ r2) m
    (p.2.map (List.map (fun v => v * weight))))

/-- STEP 4a / 4b of `preprocessDataset` in `toAffinity` mode: start from the
n × 1 zero column `np.array([np.zeros(n_regions)]).T`, fold the weighted
column concatenation over the variables, then drop the initial zero column
(`np.delete(matrix, 0, 1)`). -/
def affCombine (vw : List (String × ℚ)) (ds : List (String × Mat))
    (n_regions : ℕ) : Option Mat := do
  let m ← ds.foldl (affWeightStep vw) (some (List.replicate n_regions [0]))
  pure (m.map (List.drop 1))

/-- One iteration of STEP 4c of `preprocessDataset` in `toAffinity` mode:
look up the variable's weight, then add each component's weighted matrix into
the accumulated affinity matrix (`matrix_2d += data * weight`). -/
def aff2dStep (vw : List (String × ℚ))
    (acc : Option Mat) (p : String × List (ℕ × Mat)) : Option Mat := do
  let m ← acc
  let weight ← dictGet vw p.1
  pure (p.2.foldl
    (fun m2 q => List.zipWith (List.zipWith (fun a b => a + b)) m2
      (q.2.map (List.map (fun v => v * weight))))
    m)

/-- STEP 3 of `preprocessDataset` in `toAffinity` mode:
`dict.fromkeys(vars_ts.keys + vars_1d.keys + vars_2d.keys, 1)`. The three
category preprocessors preserve the classified variables' keys, so these are
exactly the keys of the preprocessed dictionaries. -/
def defaultVarWeightsAffinity (ds_ts ds_1d : List (String × Mat))
    (ds_2d : List (String × List (ℕ × Mat))) : List (String × ℚ) :=
  (ds_ts.map Prod.fst ++ ds_1d.map Prod.fst ++ ds_2d.map Prod.fst).map
    (fun v => (v, 1))

/-- Embedding of the `handle_mode == 'toAffinity'` branch of
`preprocessDataset` (grouping_utils.py lines 290-335), parameterized by the
preprocessed dictionaries that STEPs 0-3 produce (`preprocessTimeSeries`,
`preprocess1dVariables` and `preprocess2dVariables` with `toAffinity`; in
that mode the 2-d dictionary holds full n × n matrices per valid component).
A falsy `var_weightings` (Python `None` or the empty dict, tested by
`if not var_weightings`) selects the default weight 1 for every observed
variable; `none` models a raised KeyError. -/
def preprocessDatasetToAffinity (ds_timeseries ds_1d_vars : List (String × Mat))
    (ds_2d_vars : List (String × List (ℕ × Mat))) (n_regions : ℕ)
    (var_weightings : Option (List (String × ℚ))) : Option (Mat × Mat × Mat) :=
  let vw : List (String × ℚ) :=
    match var_weightings with
    | none => defaultVarWeightsAffinity ds_timeseries ds_1d_vars ds_2d_vars
    | some [] => defaultVarWeightsAffinity ds_timeseries ds_1d_vars ds_2d_vars
    | some (w :: ws) => w :: ws
  do
    let matrix_ts ← affCombine vw ds_timeseries n_regions
    let matrix_1d ← affCombine vw ds_1d_vars n_regions
    let matrix_2d ← ds_2d_vars.foldl (aff2dStep vw)
      (some (List.replicate n_regions (List.replicate n_regions 0)))
    pure (matrix_ts, matrix_1d, matrix_2d)

theorem affWeightStep_none (vw : List (String × ℚ)) (p : String × Mat) :
    affWeightStep vw none p = none := rfl

theorem aff2dStep_none (vw : List (String × ℚ)) (p : String × List (ℕ × Mat)) :
    aff2dStep vw none p = none := rfl

theorem affFold_missing (vw : List (String × ℚ)) (var : String)
    (hmiss : dictGet vw var = none) :
    ∀ (ds : List (String × Mat)) (acc : Option Mat), var ∈ ds.map Prod.fst →
      ds.foldl (affWeightStep vw) acc = none := by
  intro ds
  induction ds with
  | nil =>
    intro acc h
    simp at h
  | cons p ps ih =>
    intro acc h
    simp only [List.map_cons, List.mem_cons] at h
    rcases h with h | h
    · have hstep : affWeightStep vw acc p = none := by
        cases acc with
        | none => rfl
        | some s =>
          have : dictGet vw p.1 = none := h ▸ hmiss
          simp [affWeightStep, this]
      simp only [List.foldl_cons, hstep]
      exact foldl_none_absorb _ (affWeightStep_none vw) ps
    · simp only [List.foldl_cons]
      exact ih _ h

theorem affCombine_missing (vw : List (String × ℚ)) (var : String)
    (hmiss : dictGet vw var = none) (ds : List (String × Mat)) (n : ℕ)
    (hmem : var ∈ ds.map Prod.fst) : affCombine vw ds n = none := by
  unfold affCombine
  rw [affFold_missing vw var hmiss ds _ hmem]
  rfl

theorem aff2dFold_missing (vw : List (String × ℚ)) (var : String)
    (hmiss : dictGet vw var = none) :
    ∀ (ds : List (String × List (ℕ × Mat))) (acc : Option Mat),
      var ∈ ds.map Prod.fst →
      ds.foldl (aff2dStep vw) acc = none := by
  intro ds
  induction ds with
  | nil =>
    intro acc h
    simp at h
  | cons p ps ih =>
    intro acc h
    simp only [List.map_cons, List.mem_cons] at h
    rcases h with h | h
    · have hstep : aff2dStep vw acc p = none := by
        cases acc with
        | none => rfl
        | some s =>
          have : dictGet vw p.1 = none := h ▸ hmiss
          simp [aff2dStep, this]
      simp only [List.foldl_cons, hstep]
      exact foldl_none_absorb _ (aff2dStep_none vw) ps
    · simp only [List.foldl_cons]
      exact ih _ h

/-- C5 (counterexample): an explicitly supplied *empty* weight mapping is
falsy in Python, so both `selfDistance` and the `toAffinity` weighting stage
of `preprocessDataset` silently fall back to the default weight 1 for the
observed variable and succeed, instead of failing with a missing-key error:
`selfDistance` returns `(1-2)^2 = 1`, and `preprocessDataset` returns the
weight-1 combined matrices. -/
theorem explicitEmptyWeights_no_error :
    selfDistance [("v", [[1], [2]])] [] [] 2 0 1 (some []) none = some 1 ∧
    selfDistance [("v", [[1], [2]])] [] [] 2 0 1 (some []) none ≠ none ∧
    preprocessDatasetToAffinity [("v", [[1], [2]])] [] [] 2 (some []) =
      some ([[1], [2]], [[], []], [[0, 0], [0, 0]]) ∧
    preprocessDatasetToAffinity [("v", [[1], [2]])] [] [] 2 (some []) ≠ none := by
  have h1 : selfDistance [("v", [[1], [2]])] [] [] 2 0 1 (some []) none = some 1 := by
    simp [selfDistance, distCategory, dist2d, dist2dStep, dist2dInner,
      distCategoryStep, defaultVarWeights, dictGet, pyGet, condensedIndex,
      sqDiffSum, List.find?]
    norm_num
  have h2 : preprocessDatasetToAffinity [("v", [[1], [2]])] [] [] 2 (some []) =
      some ([[1], [2]], [[], []], [[0, 0], [0, 0]]) := by
    simp [preprocessDatasetToAffinity, affCombine, affWeightStep, aff2dStep,
      defaultVarWeightsAffinity, dictGet, List.find?,
      show List.replicate 2 ([0] : List ℚ) = [[0], [0]] from rfl,
      show List.replicate 2 (List.replicate 2 (0:ℚ)) = [[0, 0], [0, 0]] from rfl]
  exact ⟨h1, by simp [h1], h2, by simp [h2]⟩

/-- C5 (amended): when the caller supplies a *non-empty* variable-weight
mapping and some observed variable is absent from it, the operation fails
with a missing-key lookup error — both for `selfDistance` (a variable of
`ds_ts`, `ds_1d` or `ds_2d` missing) and for the `toAffinity` weighting
stage of `preprocessDataset` (a classified variable missing). -/
theorem explicitWeights_missing_key
    (ds_ts ds_1d : List (String × Mat))
    (ds_2d : List (String × List (ℕ × List QF)))
    (ads_ts ads_1d : List (String × Mat))
    (ads_2d : List (String × List (ℕ × Mat)))
    (n x y : ℤ) (nr : ℕ) (pw : Option (List ℚ))
    (l : List (String × ℚ)) (varD varA : String)
    (hne : l ≠ [])
    (hobsD : varD ∈ ds_ts.map Prod.fst ++ ds_1d.map Prod.fst ++ ds_2d.map Prod.fst)
    (hmissD : dictGet l varD = none)
    (hobsA : varA ∈ ads_ts.map Prod.fst ++ ads_1d.map Prod.fst ++ ads_2d.map Prod.fst)
    (hmissA : dictGet l varA = none) :
    selfDistance ds_ts ds_1d ds_2d n x y (some l) pw = none ∧
    preprocessDatasetToAffinity ads_ts ads_1d ads_2d nr (some l) = none := by
  refine ⟨selfDistance_missing_key ds_ts ds_1d ds_2d n x y l pw varD hne hobsD hmissD, ?_⟩
  match l with
  | [] => exact absurd rfl hne
  | w0 :: ws =>
    show (do
      let matrix_ts ← affCombine (w0 :: ws) ads_ts nr
      let matrix_1d ← affCombine (w0 :: ws) ads_1d nr
      let matrix_2d ← ads_2d.foldl (aff2dStep (w0 :: ws))
        (some (List.replicate nr (List.replicate nr 0)))
      pure (matrix_ts, matrix_1d, matrix_2d)) = none
    rcases List.mem_append.mp hobsA with h | h2d
    · rcases List.mem_append.mp h with hts | h1d
      · rw [affCombine_missing _ varA hmissA ads_ts nr hts]
        rfl
      · have h1 : affCombine (w0 :: ws) ads_1d nr = none :=
          affCombine_missing _ varA hmissA ads_1d nr h1d
        cases affCombine (w0 :: ws) ads_ts nr with
        | none => rfl
        | some s =>
          simp only [Option.bind_some, Option.some_bind, h1]
          rfl
    · have h2 : ads_2d.foldl (aff2dStep (w0 :: ws))
          (some (List.replicate nr (List.replicate nr 0))) = none :=
        aff2dFold_missing _ varA hmissA ads_2d _ h2d
      cases affCombine (w0 :: ws) ads_ts nr with
      | none => rfl
      | some s =>
        cases affCombine (w0 :: ws) ads_1d nr with
        | none => rfl
        | some t =>
          simp only [Option.bind_some, Option.some_bind, h2]
          rfl

/-- Witness for C5 (amended) at concrete inputs: the mapping `[("u", 3)]` is
non-empty, the observed variable `"v"` is absent from it, and both
`selfDistance` and the `toAffinity` weighting stage fail. -/
theorem explicitWeights_missing_key_witness :
    ([("u", (3:ℚ))] : List (String × ℚ)) ≠ [] ∧
    "v" ∈ ([("v", [[(1:ℚ)], [2]])].map Prod.fst ++
      ([] : List (String × Mat)).map Prod.fst ++
      ([] : List (String × List (ℕ × List QF))).map Prod.fst) ∧
    dictGet [("u", (3:ℚ))] "v" = none ∧
    "v" ∈ ([("v", [[(1:ℚ)], [2]])].map Prod.fst ++
      ([] : List (String × Mat)).map Prod.fst ++
      ([] : List (String × List (ℕ × Mat))).map Prod.fst) ∧
    selfDistance [("v", [[1], [2]])] [] [] 2 0 1 (some [("u", 3)]) none = none ∧
    preprocessDatasetToAffinity [("v", [[1], [2]])] [] [] 2 (some [("u", 3)]) = none := by
  have h := explicitWeights_missing_key [("v", [[1], [2]])] [] []
    [("v", [[1], [2]])] [] [] 2 0 1 2 none [("u", 3)] "v" "v"
    (by decide) (by decide) (by decide) (by decide) (by decide)
  exact ⟨by decide, by decide, by decide, by decide, h.1, h.2⟩
